import Mathlib

/-!
Verification of the concurrency primitives of the nonstd C library
(file nonstd_arch.h): the lock-free index ring (queue_push,
queue_push_commit, queue_pop, queue_pop_commit, queue_mpop,
queue_mpop_commit), the counting semaphore (semaphore_wait,
semaphore_post), the once barrier (once_enter, once_commit), the ticket
mutex (ticket_mutex_lock, ticket_mutex_unlock) and the blocking
concurrent queue initializer.

Machine integers (uint32_t) are modelled as Nat values below 2^32, with
wrap-around written explicitly as a remainder.  Each atomic operation is
modelled as a pure function from the shared word to a pair of result and
new word; the interleaved executions needed for the once-barrier and
ticket-mutex claims are modelled by explicit transition relations, with
one constructor per atomic instruction of the C source.
-/

namespace NonstdArch

/-- Modulus of uint32_t arithmetic. -/
def U32 : Nat := 2 ^ 32

/-- Shallow embedding of queue_push from nonstd_arch.h.  The argument w is
the value of the 32-bit ring word *q at the atomic acquire load; the
result is the returned int together with the value of *q after the call
(the only store the function can perform is the release-ordered clearing
of bit 0x8000).  In C: mask = (1u << exp) - 1; head = r & mask;
tail = r >> 16 & mask; next = (head + 1u) & mask; if (r & 0x8000) then
atomically and *q with ~0x8000; return next == tail ? -1 : head. -/
def queue_push (w : Nat) (exp : Nat) : Int × Nat :=
  let r := w
  let mask := (1 <<< exp) - 1
  let head := r &&& mask
  let tail := (r >>> 16) &&& mask
  let next := (head + 1) &&& mask
  let w2 := if r &&& 0x8000 ≠ 0 then w &&& 0xFFFF7FFF else w
  (if next = tail then -1 else (head : Int), w2)

/-- Shallow embedding of queue_push_commit: a release-ordered atomic add
of 1 to the 32-bit ring word. -/
def queue_push_commit (w : Nat) : Nat := (w + 1) % U32

/-- Shallow embedding of queue_pop: an acquire load of the ring word,
head = r & mask, tail = r >> 16 & mask, returns head == tail ? -1 : tail.
The word is returned unchanged as the second component (the function
performs no store). -/
def queue_pop (w : Nat) (exp : Nat) : Int × Nat :=
  let r := w
  let mask := (1 <<< exp) - 1
  let head := r &&& mask
  let tail := (r >>> 16) &&& mask
  (if head = tail then -1 else (tail : Int), w)

/-- Shallow embedding of queue_pop_commit: a release-ordered atomic add
of 0x10000 to the 32-bit ring word. -/
def queue_pop_commit (w : Nat) : Nat := (w + 0x10000) % U32

/-- Shallow embedding of queue_mpop: identical load and emptiness test to
queue_pop, but the observed raw word is also stored through the save
pointer.  Result components: returned int, value written to *save, value
of the ring word after the call. -/
def queue_mpop (w : Nat) (exp : Nat) : Int × Nat × Nat :=
  let r := w
  let save := r
  let mask := (1 <<< exp) - 1
  let head := r &&& mask
  let tail := (r >>> 16) &&& mask
  (if head = tail then -1 else (tail : Int), save, w)

/-- Shallow embedding of queue_mpop_commit: a single compare-and-swap of
the ring word from save to save + 0x10000.  The argument w is the value
of *q when the CAS executes; result components: the returned int as a
Bool (the C function returns the CAS success flag), and the value of *q
after the call. -/
def queue_mpop_commit (w : Nat) (save : Nat) : Bool × Nat :=
  if w = save then (true, (save + 0x10000) % U32) else (false, w)

/- Arithmetic bridge lemmas between the bitwise operations of the C
source and the modular arithmetic used in the specification. -/

lemma and_shift_mask (x e : Nat) : x &&& ((1 <<< e) - 1) = x % 2 ^ e := by
  rw [Nat.shiftLeft_eq, one_mul, Nat.and_pow_two_sub_one_eq_mod]

lemma shiftRight16_div (x : Nat) : x >>> 16 = x / 2 ^ 16 :=
  Nat.shiftRight_eq_div_pow x 16

lemma mod_pow_le (x : Nat) {e f : Nat} (h : e ≤ f) : x % 2 ^ f % 2 ^ e = x % 2 ^ e :=
  Nat.mod_mod_of_dvd x (pow_dvd_pow 2 h)

lemma pred_mod (a b : Nat) (ha : 1 ≤ a) (hb : 1 ≤ b) : (a * b - 1) % a = a - 1 := by
  rcases Nat.exists_eq_add_of_le hb with ⟨c, hc⟩
  subst hc
  rw [Nat.mul_add, Nat.mul_one]
  have h : a + a * c - 1 = (a - 1) + a * c := by
    generalize a * c = m
    omega
  rw [h, Nat.add_mul_mod_self_left, Nat.mod_eq_of_lt (by omega)]

lemma mask7FFF_mod (e : Nat) (he : e ≤ 15) : (0xFFFF7FFF : Nat) % 2 ^ e = 2 ^ e - 1 := by
  have h1 : (0xFFFF7FFF : Nat) % 2 ^ e = (0xFFFF7FFF : Nat) % 2 ^ 15 % 2 ^ e :=
    (mod_pow_le _ he).symm
  have h2 : (0xFFFF7FFF : Nat) % 2 ^ 15 = 2 ^ 15 - 1 := by decide
  have h3 : (2 : Nat) ^ 15 = 2 ^ e * 2 ^ (15 - e) := by
    rw [← pow_add]
    congr 1
    omega
  rw [h1, h2, h3, pred_mod _ _ (Nat.two_pow_pos e) (Nat.two_pow_pos (15 - e))]

lemma land_mod_low (w e : Nat) (he : e ≤ 15) : (w &&& 0xFFFF7FFF) % 2 ^ e = w % 2 ^ e := by
  rw [← Nat.and_pow_two_sub_one_eq_mod, ← Nat.and_pow_two_sub_one_eq_mod, Nat.and_assoc]
  congr 1
  rw [Nat.and_pow_two_sub_one_eq_mod, mask7FFF_mod e he]

lemma land_shift16 (w : Nat) (hw : w < 2 ^ 32) :
    (w &&& 0xFFFF7FFF) >>> 16 = w >>> 16 := by
  apply Nat.eq_of_testBit_eq
  intro i
  rw [Nat.testBit_shiftRight, Nat.testBit_shiftRight, Nat.testBit_and]
  by_cases h : i < 16
  · have hm : (0xFFFF7FFF : Nat).testBit (16 + i) = true := by
      have hs : (0xFFFF7FFF : Nat).testBit (16 + i) = ((0xFFFF7FFF : Nat) >>> 16).testBit i := by
        rw [Nat.testBit_shiftRight]
      have h16 : ((0xFFFF7FFF : Nat) >>> 16) = 2 ^ 16 - 1 := by decide
      rw [hs, h16, Nat.testBit_two_pow_sub_one]
      simp [h]
    rw [hm, Bool.and_true]
  · have hw2 : w < 2 ^ (16 + i) :=
      lt_of_lt_of_le hw (Nat.pow_le_pow_right (by norm_num) (by omega))
    rw [Nat.testBit_eq_false_of_lt hw2, Bool.false_and]

lemma push_add_mod (w e : Nat) (he : e ≤ 16) :
    (w % 2 ^ 16 + 1) % 2 ^ e = (w % 2 ^ e + 1) % 2 ^ e := by
  conv_lhs => rw [Nat.add_mod, mod_pow_le w he]
  conv_rhs => rw [Nat.add_mod, Nat.mod_mod_of_dvd w dvd_rfl]

/-- C1: for every 32-bit ring word and every capacity exponent e with
0 < e ≤ 15, queue_push returns -1 (FULL) exactly when
(head + 1) mod 2^e = tail mod 2^e, where head is the low 16 bits and tail
the high 16 bits of the loaded word; otherwise it returns head mod 2^e,
the index of the reserved slot. -/
theorem queue_push_C1 (w e : Nat) (hw : w < U32) (he0 : 0 < e) (he : e ≤ 15) :
    ((queue_push w e).1 = -1 ↔ (w % 2 ^ 16 + 1) % 2 ^ e = w / 2 ^ 16 % 2 ^ e) ∧
    ((queue_push w e).1 ≠ -1 → (queue_push w e).1 = ((w % 2 ^ 16 % 2 ^ e : Nat) : Int)) := by
  have key := push_add_mod w e (by omega)
  have hm := mod_pow_le w (show e ≤ 16 by omega)
  simp only [queue_push, and_shift_mask, shiftRight16_div]
  rw [key, hm]
  constructor
  · constructor
    · intro h
      by_contra hc
      rw [if_neg hc] at h
      omega
    · intro h
      rw [if_pos h]
  · intro h
    split_ifs at h ⊢ with hc
    · exact absurd rfl h
    · rfl

/-- Witness for queue_push_C1 at w = 0, e = 1. -/
theorem queue_push_C1_wit :
    (((queue_push 0 1).1 = -1 ↔ (0 % 2 ^ 16 + 1) % 2 ^ 1 = 0 / 2 ^ 16 % 2 ^ 1) ∧
      ((queue_push 0 1).1 ≠ -1 →
        (queue_push 0 1).1 = ((0 % 2 ^ 16 % 2 ^ 1 : Nat) : Int))) :=
  queue_push_C1 0 1 (by norm_num [U32]) (by norm_num) (by norm_num)

/-- C2 counterexample: the word 0x18000 with exponent 1 satisfies the
full condition exactly as the claim states it (head, tail taken from the
low and high 16-bit halves), has the overflow-avoidance bit 0x8000 set,
and queue_push returns FULL but does modify the stored ring word. -/
theorem queue_push_C2_cex :
    (0x18000 % 2 ^ 16 + 1) % 2 ^ 1 = 0x18000 / 2 ^ 16 % 2 ^ 1 ∧
    0x18000 &&& 0x8000 ≠ 0 ∧
    (queue_push 0x18000 1).1 = -1 ∧
    (queue_push 0x18000 1).2 ≠ 0x18000 := by
  decide

/-- C2 amended: when the full condition holds, queue_push returns FULL;
the stored ring word is unchanged whenever the overflow-avoidance bit
0x8000 is clear, and when that bit is set the only modification is that
the bit is cleared (the word becomes w AND 0xFFFF7FFF); in either case
the masked head index and the tail half are unchanged. -/
theorem queue_push_C2_amended (w e : Nat) (hw : w < U32) (he0 : 0 < e) (he : e ≤ 15)
    (hfull : (w % 2 ^ 16 + 1) % 2 ^ e = w / 2 ^ 16 % 2 ^ e) :
    (queue_push w e).1 = -1 ∧
    (w &&& 0x8000 = 0 → (queue_push w e).2 = w) ∧
    (w &&& 0x8000 ≠ 0 → (queue_push w e).2 = w &&& 0xFFFF7FFF) ∧
    (queue_push w e).2 % 2 ^ e = w % 2 ^ e ∧
    (queue_push w e).2 / 2 ^ 16 = w / 2 ^ 16 := by
  have key := push_add_mod w e (by omega)
  have hm := mod_pow_le w (show e ≤ 16 by omega)
  have hU : w < 2 ^ 32 := hw
  have hfull2 : (w % 2 ^ e + 1) % 2 ^ e = w / 2 ^ 16 % 2 ^ e := by
    rw [← key]
    exact hfull
  refine ⟨?_, ?_, ?_, ?_, ?_⟩
  · simp only [queue_push, and_shift_mask, shiftRight16_div]
    rw [if_pos hfull2]
  · intro h
    simp only [queue_push, and_shift_mask, shiftRight16_div]
    rw [if_neg (by simp [h])]
  · intro h
    simp only [queue_push, and_shift_mask, shiftRight16_div]
    rw [if_pos h]
  · simp only [queue_push]
    split_ifs with h
    · exact land_mod_low w e he
    · rfl
  · simp only [queue_push]
    split_ifs with h
    · rw [← shiftRight16_div, ← shiftRight16_div, land_shift16 w hU]
    · rfl

/-- Witness for queue_push_C2_amended at w = 0x10000, e = 1
(full word with the overflow-avoidance bit clear). -/
theorem queue_push_C2_amended_wit :
    ((queue_push 0x10000 1).1 = -1 ∧
      (0x10000 &&& 0x8000 = 0 → (queue_push 0x10000 1).2 = 0x10000) ∧
      (0x10000 &&& 0x8000 ≠ 0 → (queue_push 0x10000 1).2 = 0x10000 &&& 0xFFFF7FFF) ∧
      (queue_push 0x10000 1).2 % 2 ^ 1 = 0x10000 % 2 ^ 1 ∧
      (queue_push 0x10000 1).2 / 2 ^ 16 = 0x10000 / 2 ^ 16) :=
  queue_push_C2_amended 0x10000 1 (by norm_num [U32]) (by norm_num) (by norm_num)
    (by norm_num)

/-- C3 counterexample: on the word 0x0000FFFF (head half 0xFFFF, tail
half 0), queue_push_commit changes the tail half from 0 to 1, refuting
the claim that the tail half is left unchanged for every ring word. -/
theorem queue_commit_C3_cex :
    queue_push_commit 0xFFFF / 2 ^ 16 % 2 ^ 16 ≠ 0xFFFF / 2 ^ 16 % 2 ^ 16 := by
  decide

/-- C3 amended: queue_push_commit adds 1 to the whole 32-bit word, so it
adds exactly 1 to the head half and leaves the tail half unchanged
whenever the head half is not 0xFFFF; when the head half is 0xFFFF the
carry propagates, setting the head half to 0 and incrementing the tail
half by 1 mod 2^16.  queue_pop_commit always adds exactly 1 (mod 2^16)
to the tail half and leaves the head half unchanged. -/
theorem queue_commit_C3_amended (w : Nat) (hw : w < U32) :
    (w % 2 ^ 16 ≠ 0xFFFF →
      queue_push_commit w % 2 ^ 16 = w % 2 ^ 16 + 1 ∧
      queue_push_commit w / 2 ^ 16 = w / 2 ^ 16) ∧
    (w % 2 ^ 16 = 0xFFFF →
      queue_push_commit w % 2 ^ 16 = 0 ∧
      queue_push_commit w / 2 ^ 16 = (w / 2 ^ 16 + 1) % 2 ^ 16) ∧
    (queue_pop_commit w % 2 ^ 16 = w % 2 ^ 16 ∧
      queue_pop_commit w / 2 ^ 16 = (w / 2 ^ 16 + 1) % 2 ^ 16) := by
  have hU : U32 = 4294967296 := by norm_num [U32]
  simp only [queue_push_commit, queue_pop_commit, hU]
  norm_num
  omega

/-- Witness for queue_commit_C3_amended at w = 0. -/
theorem queue_commit_C3_amended_wit :
    ((0 % 2 ^ 16 ≠ 0xFFFF →
      queue_push_commit 0 % 2 ^ 16 = 0 % 2 ^ 16 + 1 ∧
      queue_push_commit 0 / 2 ^ 16 = 0 / 2 ^ 16) ∧
    (0 % 2 ^ 16 = 0xFFFF →
      queue_push_commit 0 % 2 ^ 16 = 0 ∧
      queue_push_commit 0 / 2 ^ 16 = (0 / 2 ^ 16 + 1) % 2 ^ 16) ∧
    (queue_pop_commit 0 % 2 ^ 16 = 0 % 2 ^ 16 ∧
      queue_pop_commit 0 / 2 ^ 16 = (0 / 2 ^ 16 + 1) % 2 ^ 16)) :=
  queue_commit_C3_amended 0 (by norm_num [U32])

/-- C4: for every 32-bit ring word and exponent e with 0 < e ≤ 15,
queue_pop returns -1 (EMPTY) exactly when head mod 2^e = tail mod 2^e
(head the low 16 bits, tail the high 16 bits of the loaded word), and
otherwise returns tail mod 2^e, the index of the slot to read from. -/
theorem queue_pop_C4 (w e : Nat) (hw : w < U32) (he0 : 0 < e) (he : e ≤ 15) :
    ((queue_pop w e).1 = -1 ↔ w % 2 ^ 16 % 2 ^ e = w / 2 ^ 16 % 2 ^ e) ∧
    ((queue_pop w e).1 ≠ -1 → (queue_pop w e).1 = ((w / 2 ^ 16 % 2 ^ e : Nat) : Int)) := by
  have hm := mod_pow_le w (show e ≤ 16 by omega)
  simp only [queue_pop, and_shift_mask, shiftRight16_div]
  rw [hm]
  constructor
  · constructor
    · intro h
      by_contra hc
      rw [if_neg hc] at h
      omega
    · intro h
      rw [if_pos h]
  · intro h
    split_ifs at h ⊢ with hc
    · exact absurd rfl h
    · rfl

/-- Witness for queue_pop_C4 at w = 1, e = 1 (nonempty ring). -/
theorem queue_pop_C4_wit :
    (((queue_pop 1 1).1 = -1 ↔ 1 % 2 ^ 16 % 2 ^ 1 = 1 / 2 ^ 16 % 2 ^ 1) ∧
      ((queue_pop 1 1).1 ≠ -1 →
        (queue_pop 1 1).1 = ((1 / 2 ^ 16 % 2 ^ 1 : Nat) : Int))) :=
  queue_pop_C4 1 1 (by norm_num [U32]) (by norm_num) (by norm_num)

/-- C5: queue_mpop returns the same index-or-EMPTY result as queue_pop on
the same word and stores the raw observed word into *save; the matching
queue_mpop_commit returns true exactly when the ring word still equals
save, in which case it replaces the word with save + 0x10000 (tail half
incremented by 1 mod 2^16, head half unchanged); otherwise it returns
false and leaves the ring word unchanged. -/
theorem queue_mpop_C5 (w s e : Nat) (hw : w < U32) (hs : s < U32) :
    (queue_mpop w e).1 = (queue_pop w e).1 ∧
    (queue_mpop w e).2.1 = w ∧
    ((queue_mpop_commit w s).1 = true ↔ w = s) ∧
    (w = s →
      (queue_mpop_commit w s).2 = (s + 0x10000) % U32 ∧
      (queue_mpop_commit w s).2 % 2 ^ 16 = s % 2 ^ 16 ∧
      (queue_mpop_commit w s).2 / 2 ^ 16 = (s / 2 ^ 16 + 1) % 2 ^ 16) ∧
    (w ≠ s → (queue_mpop_commit w s).1 = false ∧ (queue_mpop_commit w s).2 = w) := by
  have hU : U32 = 4294967296 := by norm_num [U32]
  refine ⟨rfl, rfl, ?_, ?_, ?_⟩
  · simp only [queue_mpop_commit]
    split_ifs with h
    · simp [h]
    · simp [h]
  · intro h
    simp only [queue_mpop_commit, if_pos h, hU]
    norm_num
    omega
  · intro h
    simp [queue_mpop_commit, h]

/-- Witness for queue_mpop_C5 at w = 1, s = 1, e = 1. -/
theorem queue_mpop_C5_wit :
    ((queue_mpop 1 1).1 = (queue_pop 1 1).1 ∧
      (queue_mpop 1 1).2.1 = 1 ∧
      ((queue_mpop_commit 1 1).1 = true ↔ (1 : Nat) = 1) ∧
      ((1 : Nat) = 1 →
        (queue_mpop_commit 1 1).2 = (1 + 0x10000) % U32 ∧
        (queue_mpop_commit 1 1).2 % 2 ^ 16 = 1 % 2 ^ 16 ∧
        (queue_mpop_commit 1 1).2 / 2 ^ 16 = (1 / 2 ^ 16 + 1) % 2 ^ 16) ∧
      ((1 : Nat) ≠ 1 →
        (queue_mpop_commit 1 1).1 = false ∧ (queue_mpop_commit 1 1).2 = 1)) :=
  queue_mpop_C5 1 1 1 (by norm_num [U32]) (by norm_num [U32])

/-- C10: queue_pop and queue_mpop never modify the ring word; queue_mpop
additionally writes the observed word into *save and returns the same
result as queue_pop, so a pop or mpop of an empty ring returns EMPTY
with the ring state unchanged. -/
theorem queue_pop_mpop_frame_C10 :
    ∀ w e : Nat,
      (queue_pop w e).2 = w ∧
      (queue_mpop w e).2.2 = w ∧
      (queue_mpop w e).2.1 = w ∧
      (queue_mpop w e).1 = (queue_pop w e).1 :=
  fun _ _ => ⟨rfl, rfl, rfl, rfl⟩

/-- INT32_MAX of the C source. -/
def INT32_MAX : Nat := 2147483647

/-- Shallow embedding of semaphore_post: an atomic fetch-and-add of 1
(release ordering) whose pre-increment value is checked by
assert(v < INT32_MAX); on assertion failure the program traps (modelled
as none).  Otherwise exactly one futex_wake_one call is issued,
unconditionally.  Result components: new counter value and number of
wake calls issued. -/
def semaphore_post (c : Nat) : Option (Nat × Nat) :=
  let v := c
  if v < INT32_MAX then some ((c + 1) % U32, 1) else none

/-- Update of the local expected value in the CAS loop of
semaphore_wait: on CAS failure the expected value holds the observed
counter; if that is 0 the thread blocks on the futex and resets the
expected value to 1 before retrying. -/
def semWaitNext (c : Nat) : Nat := if c = 0 then 1 else c

/-- Run of the semaphore_wait CAS loop.  The first argument is the local
expected value (1 at the call site); the list holds the value of *sem
observed at each successive CAS attempt.  Returns the observed value and
the new counter value when a CAS succeeds, none if the trace ends with
the thread still looping.  The CAS stores v - 1 with uint32 wrap-around,
as in the source. -/
def semWaitRun (v : Nat) : List Nat → Option (Nat × Nat)
  | [] => none
  | c :: cs =>
    if c = v then some (c, (v + (U32 - 1)) % U32) else semWaitRun (semWaitNext c) cs

/-- Expected values passed to the successive CAS attempts in a run of
the semaphore_wait loop. -/
def semWaitExpecteds (v : Nat) : List Nat → List Nat
  | [] => []
  | c :: cs => v :: (if c = v then [] else semWaitExpecteds (semWaitNext c) cs)

lemma semWaitRun_go (cs : List Nat) : ∀ (v c c2 : Nat), 1 ≤ v → v < U32 →
    (∀ x ∈ cs, x < U32) →
    semWaitRun v cs = some (c, c2) → 1 ≤ c ∧ c < U32 ∧ c2 = c - 1 := by
  have hU : U32 = 4294967296 := by norm_num [U32]
  induction cs with
  | nil =>
    intro v c c2 _ _ _ h
    simp [semWaitRun] at h
  | cons a as ih =>
    intro v c c2 hv1 hv2 hbd h
    have ha2 : a < U32 := hbd a (List.mem_cons_self a as)
    simp only [semWaitRun] at h
    split_ifs at h with ha
    · have h1 : a = c ∧ (v + (U32 - 1)) % U32 = c2 := by
        constructor
        · exact congrArg (fun p => p.1) (Option.some.inj h)
        · exact congrArg (fun p => p.2) (Option.some.inj h)
      obtain ⟨he1, he2⟩ := h1
      subst ha
      rw [hU] at he2 hv2 ⊢
      omega
    · refine ih (semWaitNext a) c c2 ?_ ?_ (fun x hx => hbd x (List.mem_cons_of_mem a hx)) h
      · simp only [semWaitNext]
        split_ifs <;> omega
      · simp only [semWaitNext]
        split_ifs with h0
        · omega
        · exact ha2

lemma semWaitExpecteds_pos (cs : List Nat) : ∀ (v : Nat), 1 ≤ v →
    ∀ x ∈ semWaitExpecteds v cs, 1 ≤ x := by
  induction cs with
  | nil =>
    intro v _ x hx
    simp [semWaitExpecteds] at hx
  | cons a as ih =>
    intro v hv x hx
    simp only [semWaitExpecteds] at hx
    rcases List.mem_cons.mp hx with h1 | h2
    · omega
    · split_ifs at h2 with ha
      · simp at h2
      · refine ih (semWaitNext a) ?_ x h2
        simp only [semWaitNext]
        split_ifs <;> omega

/-- C6: every completed semaphore_wait decrements the counter by exactly
1 from a value that was at least 1 and never attempts its CAS with
expected value 0 (the unsigned count cannot wrap below zero); every
semaphore_post traps exactly when the pre-increment value is INT32_MAX
or greater, otherwise increments the counter by exactly 1 and issues
exactly one wake-one call, even when no thread is waiting. -/
theorem semaphore_C6 :
    (∀ (cs : List Nat) (c c2 : Nat), (∀ x ∈ cs, x < U32) →
      semWaitRun 1 cs = some (c, c2) → 1 ≤ c ∧ c2 = c - 1) ∧
    (∀ (cs : List Nat), ∀ v ∈ semWaitExpecteds 1 cs, 1 ≤ v) ∧
    (∀ c : Nat, (semaphore_post c).isSome ↔ c < INT32_MAX) ∧
    (∀ c : Nat, c < INT32_MAX → semaphore_post c = some (c + 1, 1)) := by
  have hU : U32 = 4294967296 := by norm_num [U32]
  refine ⟨?_, ?_, ?_, ?_⟩
  · intro cs c c2 hbd h
    have := semWaitRun_go cs 1 c c2 (by omega) (by omega) hbd h
    exact ⟨this.1, this.2.2⟩
  · intro cs v hv
    exact semWaitExpecteds_pos cs 1 (by omega) v hv
  · intro c
    simp only [semaphore_post]
    split_ifs with h
    · simpa using h
    · simpa using h
  · intro c h
    have hc : (c + 1) % U32 = c + 1 := by
      rw [Nat.mod_eq_of_lt]
      simp only [INT32_MAX] at h
      omega
    simp only [semaphore_post, if_pos h, hc]

/-- Witness for semaphore_C6: a wait completing on a counter holding 1
observes 1 and stores 0; a post on a zero counter yields counter 1 and
one wake call. -/
theorem semaphore_C6_wit :
    ((1 : Nat) ≤ 1 ∧ (0 : Nat) = 1 - 1) ∧ semaphore_post 0 = some (1, 1) := by
  constructor
  · refine semaphore_C6.1 [1] 1 0 ?_ ?_
    · intro x hx
      rw [List.mem_singleton] at hx
      subst hx
      norm_num [U32]
    · decide
  · exact semaphore_C6.2.2.2 0 (by norm_num [INT32_MAX])

/-- Shallow embedding of the BlockingConcurrentQueue struct. -/
structure BlockingConcurrentQueue where
  exp : Nat
  producer_slots : Nat
  consumer_slots : Nat
  access_semaphore : Nat
  q : Nat

/-- Shallow embedding of BLOCKING_CONCURRENT_QUEUE_INITIALIZER: the C
compound literal sets exp to the exponent, producer_slots to
(1 << exponent) - 1 and access_semaphore to 1; the remaining members
consumer_slots and q are zero-initialized, per the C semantics of
designated initializers. -/
def BLOCKING_CONCURRENT_QUEUE_INITIALIZER (exponent : Nat) : BlockingConcurrentQueue :=
  { exp := exponent
    producer_slots := (1 <<< exponent) - 1
    consumer_slots := 0
    access_semaphore := 1
    q := 0 }

/-- Iterated fast path of semaphore_wait with no intervening posts: each
completed wait decrements a positive counter by one; a wait arriving at
a zero counter blocks (none). -/
def semWaitsNoPost : Nat → Nat → Option Nat
  | 0, c => some c
  | k + 1, c => if c = 0 then none else semWaitsNoPost k (c - 1)

lemma semWaitsNoPost_isSome : ∀ k c, (semWaitsNoPost k c).isSome ↔ k ≤ c := by
  intro k
  induction k with
  | zero =>
    intro c
    simp [semWaitsNoPost]
  | succ k ih =>
    intro c
    cases c with
    | zero => simp [semWaitsNoPost]
    | succ c =>
      have h1 : semWaitsNoPost (k + 1) (c + 1) = semWaitsNoPost k c := by
        simp [semWaitsNoPost]
      rw [h1, ih c]
      omega

/-- C9: BLOCKING_CONCURRENT_QUEUE_INITIALIZER(e) produces a queue with
exp = e, producer_slots = 2^e - 1, consumer_slots = 0,
access_semaphore = 1 and ring word q = 0; the producer-slot semaphore
admits exactly 2^e - 1 completed waits before a producer blocks, so
usable capacity is 2^e - 1 items, one less than the 2^e slots. -/
theorem blocking_queue_init_C9 (e : Nat) (he0 : 0 < e) (he : e ≤ 15) :
    (BLOCKING_CONCURRENT_QUEUE_INITIALIZER e).exp = e ∧
    (BLOCKING_CONCURRENT_QUEUE_INITIALIZER e).producer_slots = 2 ^ e - 1 ∧
    (BLOCKING_CONCURRENT_QUEUE_INITIALIZER e).consumer_slots = 0 ∧
    (BLOCKING_CONCURRENT_QUEUE_INITIALIZER e).access_semaphore = 1 ∧
    (BLOCKING_CONCURRENT_QUEUE_INITIALIZER e).q = 0 ∧
    (∀ k, (semWaitsNoPost k (BLOCKING_CONCURRENT_QUEUE_INITIALIZER e).producer_slots).isSome
        ↔ k ≤ 2 ^ e - 1) ∧
    2 ^ e - 1 < 2 ^ e := by
  have hshift : (1 <<< e) - 1 = 2 ^ e - 1 := by
    rw [Nat.shiftLeft_eq, one_mul]
  refine ⟨rfl, hshift, rfl, rfl, rfl, ?_, ?_⟩
  · intro k
    show (semWaitsNoPost k ((1 <<< e) - 1)).isSome ↔ k ≤ 2 ^ e - 1
    rw [hshift, semWaitsNoPost_isSome]
  · have := Nat.two_pow_pos e
    omega

/-- Witness for blocking_queue_init_C9 at e = 3. -/
theorem blocking_queue_init_C9_wit :
    ((BLOCKING_CONCURRENT_QUEUE_INITIALIZER 3).exp = 3 ∧
      (BLOCKING_CONCURRENT_QUEUE_INITIALIZER 3).producer_slots = 2 ^ 3 - 1 ∧
      (BLOCKING_CONCURRENT_QUEUE_INITIALIZER 3).consumer_slots = 0 ∧
      (BLOCKING_CONCURRENT_QUEUE_INITIALIZER 3).access_semaphore = 1 ∧
      (BLOCKING_CONCURRENT_QUEUE_INITIALIZER 3).q = 0 ∧
      (∀ k, (semWaitsNoPost k (BLOCKING_CONCURRENT_QUEUE_INITIALIZER 3).producer_slots).isSome
          ↔ k ≤ 2 ^ 3 - 1) ∧
      2 ^ 3 - 1 < 2 ^ 3) :=
  blocking_queue_init_C9 3 (by norm_num) (by norm_num)

/-- Local state of one thread executing once_enter (and, for the winner,
the subsequent once_commit), one program point per atomic instruction of
the C source: start (before the first seq-cst load), armed (after
loading a value other than 2, before the CAS), spin (CAS failed, looping
on the load in the while), doneFalse (returned 0), winner (CAS
succeeded, returned 1, initialization work in progress), committed
(called once_commit). -/
inductive OnceT where
  | start
  | armed
  | spin
  | doneFalse
  | winner
  | committed
  deriving DecidableEq

/-- Global state of an interleaved execution over the once-barrier word:
the shared int b and the local state of each of n threads. -/
structure OnceSys (n : Nat) where
  w : Nat
  ts : Fin n → OnceT

/-- Initial state: barrier word 0 (UNDONE), every thread about to call
once_enter. -/
def onceInit (n : Nat) : OnceSys n := ⟨0, fun _ => OnceT.start⟩

/-- One atomic step of an interleaved execution of once_enter calls on
a shared word, each constructor one atomic instruction of the source:
the initial seq-cst load (returning 0 if it sees 2, otherwise falling
through to the CAS), the CAS 0 -> 1 (success returns 1, failure falls
into the spin loop), the spin-loop load (exiting with return 0 only on
seeing 2), and, for the thread whose CAS succeeded, the seq-cst store of
2 performed by once_commit, called per its documented contract exactly
once by the winner after the init work. -/
inductive OnceStep {n : Nat} : OnceSys n → OnceSys n → Prop where
  | loadDone (s : OnceSys n) (i : Fin n) (h : s.ts i = OnceT.start) (hw : s.w = 2) :
      OnceStep s ⟨s.w, Function.update s.ts i OnceT.doneFalse⟩
  | loadPend (s : OnceSys n) (i : Fin n) (h : s.ts i = OnceT.start) (hw : s.w ≠ 2) :
      OnceStep s ⟨s.w, Function.update s.ts i OnceT.armed⟩
  | casWin (s : OnceSys n) (i : Fin n) (h : s.ts i = OnceT.armed) (hw : s.w = 0) :
      OnceStep s ⟨1, Function.update s.ts i OnceT.winner⟩
  | casLose (s : OnceSys n) (i : Fin n) (h : s.ts i = OnceT.armed) (hw : s.w ≠ 0) :
      OnceStep s ⟨s.w, Function.update s.ts i OnceT.spin⟩
  | spinDone (s : OnceSys n) (i : Fin n) (h : s.ts i = OnceT.spin) (hw : s.w = 2) :
      OnceStep s ⟨s.w, Function.update s.ts i OnceT.doneFalse⟩
  | commit (s : OnceSys n) (i : Fin n) (h : s.ts i = OnceT.winner) :
      OnceStep s ⟨2, Function.update s.ts i OnceT.committed⟩

/-- Reachability from the initial all-zero state by interleaved steps. -/
def OnceReach {n : Nat} (s : OnceSys n) : Prop :=
  Relation.ReflTransGen OnceStep (onceInit n) s

/-- Invariant tying the barrier word to the thread states: word 0 means
nobody has won or committed, word 1 means exactly one winner and no
commit yet, word 2 means the unique winner has committed. -/
def OnceInv {n : Nat} (s : OnceSys n) : Prop :=
  (s.w = 0 ∧ ∀ i, s.ts i ≠ OnceT.winner ∧ s.ts i ≠ OnceT.committed) ∨
  (s.w = 1 ∧ (∃ i, s.ts i = OnceT.winner) ∧
    (∀ i j, s.ts i = OnceT.winner → s.ts j = OnceT.winner → i = j) ∧
    ∀ i, s.ts i ≠ OnceT.committed) ∨
  (s.w = 2 ∧ (∀ i, s.ts i ≠ OnceT.winner) ∧
    (∀ i j, s.ts i = OnceT.committed → s.ts j = OnceT.committed → i = j))

lemma onceInv_init (n : Nat) : OnceInv (onceInit n) := by
  left
  exact ⟨rfl, fun i => by simp [onceInit]⟩

lemma onceInv_step {n : Nat} {s s2 : OnceSys n} (hs : OnceInv s) (h : OnceStep s s2) :
    OnceInv s2 := by
  cases h with
  | loadDone i h hw =>
    rcases hs with ⟨h0, hts⟩ | ⟨h1, _, _, _⟩ | ⟨h2, hnw, hc⟩
    · omega
    · omega
    · right; right
      refine ⟨h2, ?_, ?_⟩
      · intro j
        rcases eq_or_ne j i with rfl | hne
        · simp [Function.update_same]
        · simp only [Function.update_noteq hne]
          exact hnw j
      · intro j k hj hk
        rcases eq_or_ne j i with rfl | hj2
        · simp only [Function.update_same] at hj
          exact absurd hj (by simp)
        · rcases eq_or_ne k i with rfl | hk2
          · simp only [Function.update_same] at hk
            exact absurd hk (by simp)
          · simp only [Function.update_noteq hj2] at hj
            simp only [Function.update_noteq hk2] at hk
            exact hc j k hj hk
  | loadPend i h hw =>
    rcases hs with ⟨h0, hts⟩ | ⟨h1, ⟨iw, hiw⟩, huniq, hc⟩ | ⟨h2, hnw, hc⟩
    · left
      refine ⟨h0, fun j => ?_⟩
      rcases eq_or_ne j i with rfl | hne
      · simp [Function.update_same]
      · simp only [Function.update_noteq hne]
        exact hts j
    · right; left
      have hii : iw ≠ i := by
        intro hcon
        rw [hcon, h] at hiw
        exact absurd hiw (by simp)
      refine ⟨h1, ⟨iw, by simp only [Function.update_noteq hii]; exact hiw⟩, ?_, ?_⟩
      · intro j k hj hk
        rcases eq_or_ne j i with rfl | hj2
        · simp only [Function.update_same] at hj
          exact absurd hj (by simp)
        · rcases eq_or_ne k i with rfl | hk2
          · simp only [Function.update_same] at hk
            exact absurd hk (by simp)
          · simp only [Function.update_noteq hj2] at hj
            simp only [Function.update_noteq hk2] at hk
            exact huniq j k hj hk
      · intro j
        rcases eq_or_ne j i with rfl | hne
        · simp [Function.update_same]
        · simp only [Function.update_noteq hne]
          exact hc j
    · omega
  | casWin i h hw =>
    rcases hs with ⟨h0, hts⟩ | ⟨h1, _, _, _⟩ | ⟨h2, _, _⟩
    · right; left
      refine ⟨rfl, ⟨i, by simp [Function.update_same]⟩, ?_, ?_⟩
      · intro j k hj hk
        rcases eq_or_ne j i with hji | hj2
        · rcases eq_or_ne k i with hki | hk2
          · rw [hji, hki]
          · simp only [Function.update_noteq hk2] at hk
            exact absurd hk (hts k).1
        · simp only [Function.update_noteq hj2] at hj
          exact absurd hj (hts j).1
      · intro j
        rcases eq_or_ne j i with rfl | hne
        · simp [Function.update_same]
        · simp only [Function.update_noteq hne]
          exact (hts j).2
    · omega
    · omega
  | casLose i h hw =>
    rcases hs with ⟨h0, hts⟩ | ⟨h1, ⟨iw, hiw⟩, huniq, hc⟩ | ⟨h2, hnw, hc⟩
    · omega
    · right; left
      have hii : iw ≠ i := by
        intro hcon
        rw [hcon, h] at hiw
        exact absurd hiw (by simp)
      refine ⟨h1, ⟨iw, by simp only [Function.update_noteq hii]; exact hiw⟩, ?_, ?_⟩
      · intro j k hj hk
        rcases eq_or_ne j i with rfl | hj2
        · simp only [Function.update_same] at hj
          exact absurd hj (by simp)
        · rcases eq_or_ne k i with rfl | hk2
          · simp only [Function.update_same] at hk
            exact absurd hk (by simp)
          · simp only [Function.update_noteq hj2] at hj
            simp only [Function.update_noteq hk2] at hk
            exact huniq j k hj hk
      · intro j
        rcases eq_or_ne j i with rfl | hne
        · simp [Function.update_same]
        · simp only [Function.update_noteq hne]
          exact hc j
    · right; right
      refine ⟨h2, ?_, ?_⟩
      · intro j
        rcases eq_or_ne j i with rfl | hne
        · simp [Function.update_same]
        · simp only [Function.update_noteq hne]
          exact hnw j
      · intro j k hj hk
        rcases eq_or_ne j i with rfl | hj2
        · simp only [Function.update_same] at hj
          exact absurd hj (by simp)
        · rcases eq_or_ne k i with rfl | hk2
          · simp only [Function.update_same] at hk
            exact absurd hk (by simp)
          · simp only [Function.update_noteq hj2] at hj
            simp only [Function.update_noteq hk2] at hk
            exact hc j k hj hk
  | spinDone i h hw =>
    rcases hs with ⟨h0, hts⟩ | ⟨h1, _, _, _⟩ | ⟨h2, hnw, hc⟩
    · omega
    · omega
    · right; right
      refine ⟨h2, ?_, ?_⟩
      · intro j
        rcases eq_or_ne j i with rfl | hne
        · simp [Function.update_same]
        · simp only [Function.update_noteq hne]
          exact hnw j
      · intro j k hj hk
        rcases eq_or_ne j i with rfl | hj2
        · simp only [Function.update_same] at hj
          exact absurd hj (by simp)
        · rcases eq_or_ne k i with rfl | hk2
          · simp only [Function.update_same] at hk
            exact absurd hk (by simp)
          · simp only [Function.update_noteq hj2] at hj
            simp only [Function.update_noteq hk2] at hk
            exact hc j k hj hk
  | commit i h =>
    rcases hs with ⟨h0, hts⟩ | ⟨h1, ⟨iw, hiw⟩, huniq, hc⟩ | ⟨h2, hnw, hc⟩
    · exact absurd h (hts i).1
    · right; right
      refine ⟨rfl, ?_, ?_⟩
      · intro j
        rcases eq_or_ne j i with rfl | hne
        · simp [Function.update_same]
        · simp only [Function.update_noteq hne]
          intro hcon
          exact hne (huniq j i hcon h)
      · intro j k hj hk
        rcases eq_or_ne j i with hji | hj2
        · rcases eq_or_ne k i with hki | hk2
          · rw [hji, hki]
          · simp only [Function.update_noteq hk2] at hk
            exact absurd hk (hc k)
        · simp only [Function.update_noteq hj2] at hj
          exact absurd hj (hc j)
    · exact absurd h (hnw i)

lemma onceInv_reach {n : Nat} {s : OnceSys n} (hs : OnceReach s) : OnceInv s := by
  induction hs with
  | refl => exact onceInv_init n
  | tail _ hstep ih => exact onceInv_step ih hstep

/-- C7: in every interleaved execution of once_enter calls on an
initially-zero barrier word (with once_commit performed by the winner per
its documented contract), at most one call returns true; every step either
leaves the word unchanged or transitions 0 to 1 (the successful CAS) or
1 to 2 (once_commit); a call returns false only at a step where the word
is 2; and once the word is 2 it stays 2 and a thread entering then
returns false without modifying the word. -/
theorem once_barrier_C7 {n : Nat} (s : OnceSys n) (hs : OnceReach s) :
    (∀ i j, (s.ts i = OnceT.winner ∨ s.ts i = OnceT.committed) →
            (s.ts j = OnceT.winner ∨ s.ts j = OnceT.committed) → i = j) ∧
    (∀ s2, OnceStep s s2 →
      ((s2.w = s.w) ∨ (s.w = 0 ∧ s2.w = 1) ∨ (s.w = 1 ∧ s2.w = 2)) ∧
      (∀ i, s.ts i ≠ OnceT.doneFalse → s2.ts i = OnceT.doneFalse → s.w = 2) ∧
      (s.w = 2 → s2.w = 2 ∧
        ∀ i, s.ts i = OnceT.start → s2.ts i ≠ OnceT.start → s2.ts i = OnceT.doneFalse)) := by
  have hinv := onceInv_reach hs
  constructor
  · intro i j hi hj
    rcases hinv with ⟨h0, hts⟩ | ⟨h1, hex, huniq, hc⟩ | ⟨h2, hnw, hc⟩
    · rcases hi with h | h
      · exact absurd h (hts i).1
      · exact absurd h (hts i).2
    · rcases hi with hi2 | hi2
      · rcases hj with hj2 | hj2
        · exact huniq i j hi2 hj2
        · exact absurd hj2 (hc j)
      · exact absurd hi2 (hc i)
    · rcases hi with hi2 | hi2
      · exact absurd hi2 (hnw i)
      · rcases hj with hj2 | hj2
        · exact absurd hj2 (hnw j)
        · exact hc i j hi2 hj2
  · intro s2 hstep
    refine ⟨?_, ?_, ?_⟩
    · cases hstep with
      | loadDone i h hw => left; rfl
      | loadPend i h hw => left; rfl
      | casWin i h hw => right; left; exact ⟨hw, rfl⟩
      | casLose i h hw => left; rfl
      | spinDone i h hw => left; rfl
      | commit i h =>
        rcases hinv with ⟨h0, hts⟩ | ⟨h1, _, _, _⟩ | ⟨h2, hnw, _⟩
        · exact absurd h (hts i).1
        · right; right; exact ⟨h1, rfl⟩
        · exact absurd h (hnw i)
    · intro i hni hdf
      cases hstep with
      | loadDone j h hw => exact hw
      | spinDone j h hw => exact hw
      | loadPend j h hw =>
        rcases eq_or_ne i j with hij | hij
        · rw [hij] at hdf
          simp [Function.update_same] at hdf
        · simp only [Function.update_noteq hij] at hdf
          exact absurd hdf hni
      | casWin j h hw =>
        rcases eq_or_ne i j with hij | hij
        · rw [hij] at hdf
          simp [Function.update_same] at hdf
        · simp only [Function.update_noteq hij] at hdf
          exact absurd hdf hni
      | casLose j h hw =>
        rcases eq_or_ne i j with hij | hij
        · rw [hij] at hdf
          simp [Function.update_same] at hdf
        · simp only [Function.update_noteq hij] at hdf
          exact absurd hdf hni
      | commit j h =>
        rcases eq_or_ne i j with hij | hij
        · rw [hij] at hdf
          simp [Function.update_same] at hdf
        · simp only [Function.update_noteq hij] at hdf
          exact absurd hdf hni
    · intro hw2
      cases hstep with
      | loadDone j h hw =>
        refine ⟨hw2, fun i hi hni => ?_⟩
        rcases eq_or_ne i j with hij | hij
        · rw [hij]
          simp [Function.update_same]
        · exact absurd (by simp only [Function.update_noteq hij]; exact hi) hni
      | loadPend j h hw => exact absurd hw2 hw
      | casWin j h hw => omega
      | casLose j h hw =>
        refine ⟨hw2, fun i hi hni => ?_⟩
        rcases eq_or_ne i j with hij | hij
        · rw [hij] at hi
          exact absurd (hi.symm.trans h) (by simp)
        · exact absurd (by simp only [Function.update_noteq hij]; exact hi) hni
      | spinDone j h hw =>
        refine ⟨hw2, fun i hi hni => ?_⟩
        rcases eq_or_ne i j with hij | hij
        · rw [hij]
          simp [Function.update_same]
        · exact absurd (by simp only [Function.update_noteq hij]; exact hi) hni
      | commit j h =>
        rcases hinv with ⟨h0, _⟩ | ⟨h1, _, _, _⟩ | ⟨h2, hnw, _⟩
        · omega
        · omega
        · exact absurd h (hnw j)

/-- Witness for once_barrier_C7 at n = 1 and the initial state. -/
theorem once_barrier_C7_wit :
    ((∀ i j : Fin 1,
        ((onceInit 1).ts i = OnceT.winner ∨ (onceInit 1).ts i = OnceT.committed) →
        ((onceInit 1).ts j = OnceT.winner ∨ (onceInit 1).ts j = OnceT.committed) → i = j) ∧
      (∀ s2, OnceStep (onceInit 1) s2 →
        ((s2.w = (onceInit 1).w) ∨ ((onceInit 1).w = 0 ∧ s2.w = 1) ∨
          ((onceInit 1).w = 1 ∧ s2.w = 2)) ∧
        (∀ i, (onceInit 1).ts i ≠ OnceT.doneFalse → s2.ts i = OnceT.doneFalse →
          (onceInit 1).w = 2) ∧
        ((onceInit 1).w = 2 → s2.w = 2 ∧
          ∀ i, (onceInit 1).ts i = OnceT.start → s2.ts i ≠ OnceT.start →
            s2.ts i = OnceT.doneFalse))) :=
  once_barrier_C7 (onceInit 1) Relation.ReflTransGen.refl

/-- Local state of one thread with respect to the ticket mutex: idle
(has not yet called ticket_mutex_lock), waiting t (it performed the
relaxed fetch_add obtaining my_ticket = t and is spinning on the acquire
load of serving), inCS t (the load returned its ticket, it holds the
mutex), released t (it called ticket_mutex_unlock). -/
inductive TMState where
  | idle
  | waiting (t : Nat)
  | inCS (t : Nat)
  | released (t : Nat)
  deriving DecidableEq

/-- Global state of an interleaved execution over a TicketMutex: the two
uint32 counters of the struct and the local state of each of n threads,
each thread locking at most once. -/
structure TMSys (n : Nat) where
  ticket : Nat
  serving : Nat
  ts : Fin n → TMState

/-- Initial state: a zero-initialized TicketMutex, no thread has called
ticket_mutex_lock. -/
def tmInit (n : Nat) : TMSys n := ⟨0, 0, fun _ => TMState.idle⟩

/-- One atomic step of an interleaved execution over a TicketMutex, one
constructor per atomic instruction of the C source: the relaxed
fetch_add of 1 on ticket in ticket_mutex_lock (wrapping mod 2^32), the
acquire load of serving that exits the spin loop exactly when it equals
my_ticket, and the release fetch_add of 1 on serving in
ticket_mutex_unlock (wrapping mod 2^32). -/
inductive TMStep {n : Nat} : TMSys n → TMSys n → Prop where
  | draw (s : TMSys n) (i : Fin n) (h : s.ts i = TMState.idle) :
      TMStep s ⟨(s.ticket + 1) % U32, s.serving,
        Function.update s.ts i (TMState.waiting s.ticket)⟩
  | acquire (s : TMSys n) (i : Fin n) (t : Nat) (h : s.ts i = TMState.waiting t)
      (hserv : s.serving = t) :
      TMStep s ⟨s.ticket, s.serving, Function.update s.ts i (TMState.inCS t)⟩
  | unlock (s : TMSys n) (i : Fin n) (t : Nat) (h : s.ts i = TMState.inCS t) :
      TMStep s ⟨s.ticket, (s.serving + 1) % U32,
        Function.update s.ts i (TMState.released t)⟩

/-- Reachability from the zero-initialized mutex. -/
def TMReach {n : Nat} (s : TMSys n) : Prop :=
  Relation.ReflTransGen TMStep (tmInit n) s

/-- Threads that have performed their fetch_add on ticket. -/
def tmDrawn {n : Nat} (s : TMSys n) : Finset (Fin n) :=
  Finset.univ.filter (fun i => s.ts i ≠ TMState.idle)

/-- Ticket drawn by a thread, if it has drawn one. -/
def ticketOf : TMState → Option Nat
  | TMState.idle => none
  | TMState.waiting t => some t
  | TMState.inCS t => some t
  | TMState.released t => some t

/-- Invariant of the ticket mutex system: ticket counts the draws,
serving trails ticket, a waiting ticket lies in [serving, ticket), the
holder ticket equals serving, released tickets are below serving, and no
two threads hold the same ticket. -/
def TMInv {n : Nat} (s : TMSys n) : Prop :=
  s.ticket = (tmDrawn s).card ∧
  s.serving ≤ s.ticket ∧
  (∀ i t, s.ts i = TMState.waiting t → s.serving ≤ t ∧ t < s.ticket) ∧
  (∀ i t, s.ts i = TMState.inCS t → t = s.serving ∧ t < s.ticket) ∧
  (∀ i t, s.ts i = TMState.released t → t < s.serving) ∧
  (∀ i j t, ticketOf (s.ts i) = some t → ticketOf (s.ts j) = some t → i = j)

lemma tmDrawn_card_le {n : Nat} (s : TMSys n) : (tmDrawn s).card ≤ n := by
  calc (tmDrawn s).card ≤ Finset.univ.card := Finset.card_filter_le _ _
    _ = n := by rw [Finset.card_univ, Fintype.card_fin]

lemma filter_update_card_of_idle {n : Nat} (ts : Fin n → TMState) (i : Fin n)
    (v : TMState) (h : ts i = TMState.idle) (hv : v ≠ TMState.idle) :
    (Finset.univ.filter (fun j => Function.update ts i v j ≠ TMState.idle)).card
      = (Finset.univ.filter (fun j => ts j ≠ TMState.idle)).card + 1 := by
  have hset : Finset.univ.filter (fun j => Function.update ts i v j ≠ TMState.idle)
      = insert i (Finset.univ.filter (fun j => ts j ≠ TMState.idle)) := by
    ext j
    simp only [Finset.mem_filter, Finset.mem_univ, true_and, Finset.mem_insert]
    rcases eq_or_ne j i with hji | hji
    · subst hji
      simp [Function.update_same, hv]
    · simp [Function.update_noteq hji, hji]
  rw [hset, Finset.card_insert_of_not_mem]
  simp [h]

lemma filter_update_of_drawn {n : Nat} (ts : Fin n → TMState) (i : Fin n)
    (v : TMState) (h : ts i ≠ TMState.idle) (hv : v ≠ TMState.idle) :
    Finset.univ.filter (fun j => Function.update ts i v j ≠ TMState.idle)
      = Finset.univ.filter (fun j => ts j ≠ TMState.idle) := by
  ext j
  simp only [Finset.mem_filter, Finset.mem_univ, true_and]
  rcases eq_or_ne j i with hji | hji
  · subst hji
    simp [Function.update_same, hv, h]
  · simp [Function.update_noteq hji]

lemma tmInv_init (n : Nat) : TMInv (tmInit n) := by
  refine ⟨?_, le_refl 0, ?_, ?_, ?_, ?_⟩
  · have : tmDrawn (tmInit n) = ∅ := by
      ext j
      simp [tmDrawn, tmInit]
    rw [this]
    rfl
  · intro i t h
    exact absurd h (by simp [tmInit])
  · intro i t h
    exact absurd h (by simp [tmInit])
  · intro i t h
    exact absurd h (by simp [tmInit])
  · intro i j t hi hj
    simp [tmInit, ticketOf] at hi

lemma tmInv_step {n : Nat} (hn : n < U32) {s s2 : TMSys n} (hs : TMInv s)
    (h : TMStep s s2) : TMInv s2 := by
  have hU : U32 = 4294967296 := by norm_num [U32]
  obtain ⟨hcard, hst, hwait, hcs, hrel, hinj⟩ := hs
  have hlt2 : ∀ k t, ticketOf (s.ts k) = some t → t < s.ticket := by
    intro k t hk
    cases hsk : s.ts k with
    | idle =>
      rw [hsk] at hk
      simp [ticketOf] at hk
    | waiting u =>
      rw [hsk] at hk
      simp only [ticketOf, Option.some.injEq] at hk
      rw [← hk]
      exact (hwait k u hsk).2
    | inCS u =>
      rw [hsk] at hk
      simp only [ticketOf, Option.some.injEq] at hk
      rw [← hk]
      exact (hcs k u hsk).2
    | released u =>
      rw [hsk] at hk
      simp only [ticketOf, Option.some.injEq] at hk
      rw [← hk]
      exact lt_of_lt_of_le (hrel k u hsk) hst
  cases h with
  | draw i h =>
    have hcard2 : (tmDrawn (⟨(s.ticket + 1) % U32, s.serving,
        Function.update s.ts i (TMState.waiting s.ticket)⟩ : TMSys n)).card
          = (tmDrawn s).card + 1 :=
      filter_update_card_of_idle s.ts i _ h (by simp)
    have hle : (tmDrawn s).card + 1 ≤ n := by
      rw [← hcard2]
      exact tmDrawn_card_le _
    have htick : (s.ticket + 1) % U32 = s.ticket + 1 := by
      apply Nat.mod_eq_of_lt
      omega
    simp only [TMInv]
    refine ⟨?_, ?_, ?_, ?_, ?_, ?_⟩
    · rw [hcard2, htick, hcard]
    · rw [htick]
      omega
    · intro j t hj
      rcases eq_or_ne j i with hji | hji
      · subst hji
        simp only [Function.update_same] at hj
        have ht : s.ticket = t := by injection hj
        rw [htick]
        omega
      · simp only [Function.update_noteq hji] at hj
        have := hwait j t hj
        rw [htick]
        omega
    · intro j t hj
      rcases eq_or_ne j i with hji | hji
      · subst hji
        simp only [Function.update_same] at hj
        simp at hj
      · simp only [Function.update_noteq hji] at hj
        have := hcs j t hj
        rw [htick]
        omega
    · intro j t hj
      rcases eq_or_ne j i with hji | hji
      · subst hji
        simp only [Function.update_same] at hj
        simp at hj
      · simp only [Function.update_noteq hji] at hj
        exact hrel j t hj
    · intro j k t hj hk
      rcases eq_or_ne j i with hji | hji
      · rcases eq_or_ne k i with hki | hki
        · rw [hji, hki]
        · subst hji
          simp only [Function.update_same, ticketOf, Option.some.injEq] at hj
          simp only [Function.update_noteq hki] at hk
          have := hlt2 k t hk
          omega
      · rcases eq_or_ne k i with hki | hki
        · subst hki
          simp only [Function.update_same, ticketOf, Option.some.injEq] at hk
          simp only [Function.update_noteq hji] at hj
          have := hlt2 j t hj
          omega
        · simp only [Function.update_noteq hji] at hj
          simp only [Function.update_noteq hki] at hk
          exact hinj j k t hj hk
  | acquire i t h hserv =>
    have hcard2 : (tmDrawn (⟨s.ticket, s.serving,
        Function.update s.ts i (TMState.inCS t)⟩ : TMSys n)).card
          = (tmDrawn s).card :=
      congrArg Finset.card
        (filter_update_of_drawn s.ts i _ (by rw [h]; simp) (by simp))
    simp only [TMInv]
    refine ⟨?_, hst, ?_, ?_, ?_, ?_⟩
    · rw [hcard2]
      exact hcard
    · intro j u hj
      rcases eq_or_ne j i with hji | hji
      · subst hji
        simp only [Function.update_same] at hj
        simp at hj
      · simp only [Function.update_noteq hji] at hj
        exact hwait j u hj
    · intro j u hj
      rcases eq_or_ne j i with hji | hji
      · subst hji
        simp only [Function.update_same] at hj
        have hu : t = u := by injection hj
        have := (hwait j t h).2
        omega
      · simp only [Function.update_noteq hji] at hj
        exact hcs j u hj
    · intro j u hj
      rcases eq_or_ne j i with hji | hji
      · subst hji
        simp only [Function.update_same] at hj
        simp at hj
      · simp only [Function.update_noteq hji] at hj
        exact hrel j u hj
    · have hto : ∀ j, ticketOf (Function.update s.ts i (TMState.inCS t) j)
          = ticketOf (s.ts j) := by
        intro j
        rcases eq_or_ne j i with hji | hji
        · subst hji
          simp [Function.update_same, h, ticketOf]
        · rw [Function.update_noteq hji]
      intro j k u hj hk
      rw [hto j] at hj
      rw [hto k] at hk
      exact hinj j k u hj hk
  | unlock i t h =>
    have hts := hcs i t h
    have hcard2 : (tmDrawn (⟨s.ticket, (s.serving + 1) % U32,
        Function.update s.ts i (TMState.released t)⟩ : TMSys n)).card
          = (tmDrawn s).card :=
      congrArg Finset.card
        (filter_update_of_drawn s.ts i _ (by rw [h]; simp) (by simp))
    have hcle : (tmDrawn s).card ≤ n := tmDrawn_card_le s
    have hserv2 : (s.serving + 1) % U32 = s.serving + 1 := by
      apply Nat.mod_eq_of_lt
      omega
    simp only [TMInv]
    refine ⟨?_, ?_, ?_, ?_, ?_, ?_⟩
    · rw [hcard2]
      exact hcard
    · rw [hserv2]
      omega
    · intro j u hj
      rcases eq_or_ne j i with hji | hji
      · subst hji
        simp only [Function.update_same] at hj
        simp at hj
      · simp only [Function.update_noteq hji] at hj
        have hw := hwait j u hj
        have hne : u ≠ t := by
          intro hut
          apply hji
          exact hinj j i u (by simp [hj, ticketOf]) (by simp [h, ticketOf, hut])
        rw [hserv2]
        omega
    · intro j u hj
      rcases eq_or_ne j i with hji | hji
      · subst hji
        simp only [Function.update_same] at hj
        simp at hj
      · simp only [Function.update_noteq hji] at hj
        have hu := hcs j u hj
        exfalso
        apply hji
        refine hinj j i u (by simp [hj, ticketOf]) ?_
        simp only [h, ticketOf, Option.some.injEq]
        omega
    · intro j u hj
      rcases eq_or_ne j i with hji | hji
      · subst hji
        simp only [Function.update_same] at hj
        have hu : t = u := by injection hj
        rw [hserv2]
        omega
      · simp only [Function.update_noteq hji] at hj
        have := hrel j u hj
        rw [hserv2]
        omega
    · have hto : ∀ j, ticketOf (Function.update s.ts i (TMState.released t) j)
          = ticketOf (s.ts j) := by
        intro j
        rcases eq_or_ne j i with hji | hji
        · subst hji
          simp [Function.update_same, h, ticketOf]
        · rw [Function.update_noteq hji]
      intro j k u hj hk
      rw [hto j] at hj
      rw [hto k] at hk
      exact hinj j k u hj hk

lemma tmInv_reach {n : Nat} (hn : n < U32) {s : TMSys n} (hs : TMReach s) : TMInv s := by
  induction hs with
  | refl => exact tmInv_init n
  | tail _ hstep ih => exact tmInv_step hn ih hstep

/-- C8: FIFO fairness of the ticket mutex, in every interleaved
execution reachable from a zero-initialized TicketMutex with fewer than
2^32 threads (each locking at most once, so tickets are distinct): a
thread that drew ticket t enters its critical section only at a step
where serving = t; each ticket_mutex_unlock increments serving by
exactly 1; it is never the case that a thread holds (or has held) the
lock with ticket t while a thread with an earlier ticket u < t is still
waiting -- equivalently every thread whose ticket is below that of a
released thread has itself already been released, so threads drawing
tickets in real-time order acquire the mutex in exactly that order. -/
theorem ticket_mutex_C8 {n : Nat} (hn : n < U32) (s : TMSys n) (hs : TMReach s) :
    (∀ s2 i t, TMStep s s2 → s.ts i ≠ TMState.inCS t → s2.ts i = TMState.inCS t →
      s.serving = t) ∧
    (∀ s2 i t, TMStep s s2 → s.ts i = TMState.inCS t → s2.ts i = TMState.released t →
      s2.serving = s.serving + 1) ∧
    (∀ i j t u, (s.ts i = TMState.inCS t ∨ s.ts i = TMState.released t) →
      s.ts j = TMState.waiting u → t < u) ∧
    (∀ i j t u, s.ts i = TMState.released t → ticketOf (s.ts j) = some u → u < t →
      s.ts j = TMState.released u) := by
  have hU : U32 = 4294967296 := by norm_num [U32]
  obtain ⟨hcard, hst, hwait, hcs, hrel, hinj⟩ := tmInv_reach hn hs
  refine ⟨?_, ?_, ?_, ?_⟩
  · intro s2 i t hstep hni hyes
    cases hstep with
    | draw j h =>
      rcases eq_or_ne i j with hij | hij
      · rw [hij] at hyes
        simp [Function.update_same] at hyes
      · simp only [Function.update_noteq hij] at hyes
        exact absurd hyes hni
    | acquire j u h hserv =>
      rcases eq_or_ne i j with hij | hij
      · rw [hij] at hyes
        simp only [Function.update_same] at hyes
        have hu : u = t := by injection hyes
        rw [hserv, hu]
      · simp only [Function.update_noteq hij] at hyes
        exact absurd hyes hni
    | unlock j u h =>
      rcases eq_or_ne i j with hij | hij
      · rw [hij] at hyes
        simp [Function.update_same] at hyes
      · simp only [Function.update_noteq hij] at hyes
        exact absurd hyes hni
  · intro s2 i t hstep hbefore hafter
    cases hstep with
    | draw j h =>
      rcases eq_or_ne i j with hij | hij
      · rw [hij] at hbefore
        rw [h] at hbefore
        simp at hbefore
      · simp only [Function.update_noteq hij] at hafter
        rw [hbefore] at hafter
        simp at hafter
    | acquire j u h hserv =>
      rcases eq_or_ne i j with hij | hij
      · rw [hij] at hbefore
        rw [h] at hbefore
        simp at hbefore
      · simp only [Function.update_noteq hij] at hafter
        rw [hbefore] at hafter
        simp at hafter
    | unlock j u h =>
      rcases eq_or_ne i j with hij | hij
      · show (s.serving + 1) % U32 = s.serving + 1
        have hu := hcs j u h
        have hcle : (tmDrawn s).card ≤ n := tmDrawn_card_le s
        apply Nat.mod_eq_of_lt
        omega
      · simp only [Function.update_noteq hij] at hafter
        rw [hbefore] at hafter
        simp at hafter
  · intro i j t u hi hj
    have hw := hwait j u hj
    rcases hi with hi2 | hi2
    · have hc := hcs i t hi2
      have hne : t ≠ u := by
        intro htu
        have hij : i = j := hinj i j t (by simp [hi2, ticketOf]) (by simp [hj, ticketOf, htu])
        rw [hij, hj] at hi2
        simp at hi2
      omega
    · have hr := hrel i t hi2
      omega
  · intro i j t u hi hj hult
    have hri := hrel i t hi
    cases hsj : s.ts j with
    | idle =>
      rw [hsj] at hj
      simp [ticketOf] at hj
    | waiting v =>
      rw [hsj] at hj
      simp only [ticketOf, Option.some.injEq] at hj
      have := hwait j v hsj
      exfalso
      omega
    | inCS v =>
      rw [hsj] at hj
      simp only [ticketOf, Option.some.injEq] at hj
      have := hcs j v hsj
      exfalso
      omega
    | released v =>
      rw [hsj] at hj
      simp only [ticketOf, Option.some.injEq] at hj
      rw [hj]


/-- Witness for ticket_mutex_C8 at n = 1 and the initial state. -/
theorem ticket_mutex_C8_wit :
    ((∀ s2 i t, TMStep (tmInit 1) s2 → (tmInit 1).ts i ≠ TMState.inCS t →
        s2.ts i = TMState.inCS t → (tmInit 1).serving = t) ∧
      (∀ s2 i t, TMStep (tmInit 1) s2 → (tmInit 1).ts i = TMState.inCS t →
        s2.ts i = TMState.released t → s2.serving = (tmInit 1).serving + 1) ∧
      (∀ i j t u, ((tmInit 1).ts i = TMState.inCS t ∨ (tmInit 1).ts i = TMState.released t) →
        (tmInit 1).ts j = TMState.waiting u → t < u) ∧
      (∀ i j t u, (tmInit 1).ts i = TMState.released t → ticketOf ((tmInit 1).ts j) = some u →
        u < t → (tmInit 1).ts j = TMState.released u)) :=
  ticket_mutex_C8 (by norm_num [U32]) (tmInit 1) Relation.ReflTransGen.refl

end NonstdArch

